import Mathlib

/-! # Proof-of-work difficulty engine (`src/pow.cpp`)

A shallow embedding of `GetNextWorkRequired`, `CalculateNextWorkRequired` and
`CheckProofOfWork`, together with the compact target codec they rely on, and of the
opening (lines 16-29) and the clamp (line 44) of `BermudaGravityPull`.

Conventions of the embedding.

* `arith_uint256` values are natural numbers; every operation that can leave the
  256-bit range reduces its result modulo `2 ^ 256`.
* `unsigned int` compact values (`nBits`) are natural numbers.
* `int` / `int64_t` quantities (heights, timestamps, timespans) are mathematical
  integers.  Signed overflow is undefined behaviour in C++, so the embedding
  describes the executions that are free of it; `/` and `%` on signed operands
  are the truncating `Int.tdiv` and `Int.tmod`.
* A function that can stop on a failed `assert`, on a remainder or division by
  zero, returns `Option`; `none` stands for "no value is returned".
* `arith_uint256.h`, `uint256.h`, `chain.h` and `consensus/params.h` are not part
  of the sources; what is used from them is modelled from the specification and
  marked as such.
-/

namespace Pow

/-! ## Data model -/

/-- Modelled from the spec: `Consensus::Params` (consensus/params.h is absent), the
immutable per-network configuration of section 3: `powLimit`, `targetSpacing`,
`targetTimespan`, `allowMinDifficultyBlocks`, `noRetargeting`, under the field names
used by `pow.cpp`. -/
structure Params where
  powLimit : Nat
  nPowTargetSpacing : Int
  nPowTargetTimespan : Int
  fPowAllowMinDifficultyBlocks : Bool
  fPowNoRetargeting : Bool
deriving DecidableEq

/-- Modelled from the spec: `Params::DifficultyAdjustmentInterval()` (consensus/params.h
is absent), `adjustmentInterval = timespan / spacing`.  With a zero spacing the
quotient is `0` here, and every use of the interval as a modulus then fails. -/
def Params.DifficultyAdjustmentInterval (p : Params) : Int :=
  Int.tdiv p.nPowTargetTimespan p.nPowTargetSpacing

/-- The data fields of a block index entry read by `pow.cpp`: `nHeight`, the block time
and the compact target `nBits`. -/
structure BlockFields where
  nHeight : Int
  nTime : Int
  nBits : Nat
deriving DecidableEq

/-- Modelled from the spec: `CBlockIndex` (chain.h is absent), the block metadata of
section 3 with its back-reference to the immediate ancestor.  `root` is an entry whose
`pprev` is null, `child` an entry whose `pprev` points to the given entry. -/
inductive CBlockIndex where
  | root (fields : BlockFields)
  | child (fields : BlockFields) (prev : CBlockIndex)
deriving DecidableEq

/-- The data fields of an entry. -/
def CBlockIndex.fields : CBlockIndex → BlockFields
  | .root f => f
  | .child f _ => f

/-- The field `nHeight`. -/
def CBlockIndex.nHeight (b : CBlockIndex) : Int := b.fields.nHeight

/-- The field `nBits`. -/
def CBlockIndex.nBits (b : CBlockIndex) : Nat := b.fields.nBits

/-- The accessor `GetBlockTime()`: the timestamp as a signed 64-bit quantity. -/
def CBlockIndex.GetBlockTime (b : CBlockIndex) : Int := b.fields.nTime

/-- The pointer `pprev`; `none` is the null pointer. -/
def CBlockIndex.pprev : CBlockIndex → Option CBlockIndex
  | .root _ => none
  | .child _ p => some p

/-- Modelled from the spec: `CBlockIndex::GetAncestor` (chain.cpp is absent),
`ancestorAtHeight(block, height) -> BlockMetadata | null`: null for a negative height
or one above the block's own, otherwise the entry of that height reached by following
the back-references, null when there is none. -/
def CBlockIndex.GetAncestor : CBlockIndex → Int → Option CBlockIndex
  | .root f, height =>
    if height > f.nHeight ∨ height < 0 then none
    else if f.nHeight = height then some (.root f) else none
  | .child f p, height =>
    if height > f.nHeight ∨ height < 0 then none
    else if f.nHeight = height then some (.child f p) else p.GetAncestor height

/-- Modelled from the spec: `CBlockHeader` (primitives/block.h is absent); only the
timestamp of the candidate header is read. -/
structure CBlockHeader where
  nTime : Int
deriving DecidableEq

/-- The accessor `GetBlockTime()` of the candidate header. -/
def CBlockHeader.GetBlockTime (h : CBlockHeader) : Int := h.nTime

/-! ## 256-bit arithmetic and the compact codec -/

/-- Modelled from the spec: `UintToArith256` (arith_uint256.h is absent).  A `uint256`
is represented by the 256-bit unsigned integer it denotes, so the conversion is the
identity. -/
def UintToArith256 (a : Nat) : Nat := a

/-- The value an `int64_t` takes when converted to `arith_uint256`: a non-negative
value converts exactly, a negative one wraps modulo `2 ^ 64` as in the C++
signed-to-unsigned conversion. -/
def ofInt64 (a : Int) : Nat := if 0 ≤ a then a.toNat else (a % 2 ^ 64).toNat

/-- Modelled from the spec: `arith_uint256::operator*=` (arith_uint256.h is absent),
"multiply by `actualTimespan`" in 256-bit unsigned arithmetic: the product is kept
modulo `2 ^ 256`. -/
def mul256 (bn : Nat) (a : Int) : Nat := (bn * ofInt64 a) % 2 ^ 256

/-- Modelled from the spec: `arith_uint256::operator/=` (arith_uint256.h is absent),
"divide by `targetTimespan`" in integer arithmetic; a zero divisor gives no value. -/
def div256 (bn : Nat) (d : Int) : Option Nat :=
  if ofInt64 d = 0 then none else some (bn / ofInt64 d)

/-- The result of decoding a compact value: the target and the two flags. -/
structure Decoded where
  target : Nat
  fNegative : Bool
  fOverflow : Bool
deriving DecidableEq

/-- Modelled from the spec: `arith_uint256::SetCompact` (arith_uint256.h is absent),
`decode(compact) -> (target, isNegative, isOverflow)` of section 4.1:
`exponent = compact >> 24`, `mantissa = compact & 0x007fffff`,
`isNegative = (compact & 0x00800000) != 0`, the target is `mantissa >> 8*(3-exponent)`
when `exponent <= 3` and `mantissa << 8*(exponent-3)` (a 256-bit value) otherwise, and
`isOverflow` holds when `mantissa != 0` and the shift would exceed 256 bits, which
includes every `exponent > 34`. -/
def SetCompact (nCompact : Nat) : Decoded :=
  let exponent := nCompact >>> 24
  let mantissa := nCompact &&& 0x007fffff
  { target :=
      if exponent ≤ 3 then mantissa >>> (8 * (3 - exponent))
      else (mantissa <<< (8 * (exponent - 3))) % 2 ^ 256
    fNegative := (nCompact &&& 0x00800000) != 0
    fOverflow := mantissa != 0 &&
      (decide (exponent > 34) || decide (2 ^ 256 ≤ mantissa <<< (8 * (exponent - 3)))) }

/-- Number of bytes of `t`, counted on at most `fuel` bytes. -/
def byteLenAux : Nat → Nat → Nat
  | 0, _ => 0
  | fuel + 1, t => if t = 0 then 0 else byteLenAux fuel (t / 256) + 1

/-- The minimal number of bytes that hold `t` (`0` for `t = 0`). -/
def byteLen (t : Nat) : Nat := byteLenAux t t

/-- Modelled from the spec: `arith_uint256::GetCompact` (arith_uint256.h is absent),
`encode(target) -> compact` of section 4.1: take the minimal byte-exponent for which
the target fits in a 3-byte mantissa; if the top bit of the most significant mantissa
byte would be set, shift the mantissa down one byte and increment the exponent; the
exponent byte sits above the three mantissa bytes. -/
def GetCompact (t : Nat) : Nat :=
  let nSize := byteLen t
  let nCompact := if nSize ≤ 3 then t <<< (8 * (3 - nSize)) else t >>> (8 * (nSize - 3))
  if nCompact &&& 0x00800000 ≠ 0 then (nCompact >>> 8) ||| ((nSize + 1) <<< 24)
  else nCompact ||| (nSize <<< 24)

/-! ## `pow.cpp` -/

/-- The value of `nActualTimespan` after the two clamping statements of
`CalculateNextWorkRequired` (lines 107-111). -/
def nActualTimespan (pindexLast : CBlockIndex) (nFirstBlockTime : Int) (params : Params) :
    Int :=
  let n0 := pindexLast.GetBlockTime - nFirstBlockTime
  let n1 :=
    if n0 < Int.tdiv params.nPowTargetTimespan 4 then Int.tdiv params.nPowTargetTimespan 4
    else n0
  if n1 > params.nPowTargetTimespan * 4 then params.nPowTargetTimespan * 4 else n1

/-- The function `CalculateNextWorkRequired` (lines 101-124). -/
def CalculateNextWorkRequired (pindexLast : CBlockIndex) (nFirstBlockTime : Int)
    (params : Params) : Option Nat :=
  if params.fPowNoRetargeting then some pindexLast.nBits
  else
    let bnPowLimit := UintToArith256 params.powLimit
    let bnSet := (SetCompact pindexLast.nBits).target
    let bnMul := mul256 bnSet (nActualTimespan pindexLast nFirstBlockTime params)
    match div256 bnMul params.nPowTargetTimespan with
    | none => none
    | some bnDiv =>
      let bnNew := if bnDiv > bnPowLimit then bnPowLimit else bnDiv
      some (GetCompact bnNew)

/-- The `while` loop of lines 83-85: starting at `pindex`, step to `pprev` as long as
there is a `pprev`, the height is off the interval and the entry carries the
minimum-difficulty compact value; the result is the entry the loop stops at. -/
def lastNonMinDifficulty (interval : Int) (nProofOfWorkLimit : Nat) :
    CBlockIndex → CBlockIndex
  | .root f => .root f
  | .child f p =>
    if Int.tmod f.nHeight interval ≠ 0 ∧ f.nBits = nProofOfWorkLimit then
      lastNonMinDifficulty interval nProofOfWorkLimit p
    else .child f p

/-- The function `GetNextWorkRequired` (lines 65-99).  `none` as first argument is the
null pointer, on which the opening `assert` fails. -/
def GetNextWorkRequired (pindexLast : Option CBlockIndex) (pblock : CBlockHeader)
    (params : Params) : Option Nat :=
  match pindexLast with
  | none => none
  | some last =>
    let nProofOfWorkLimit := GetCompact (UintToArith256 params.powLimit)
    let interval := params.DifficultyAdjustmentInterval
    -- line 71 takes a remainder by the interval: no value for a zero interval
    if interval = 0 then none
    else if Int.tmod (last.nHeight + 1) interval ≠ 0 then
      if params.fPowAllowMinDifficultyBlocks then
        if pblock.GetBlockTime > last.GetBlockTime + params.nPowTargetSpacing * 2 then
          some nProofOfWorkLimit
        else
          some (lastNonMinDifficulty interval nProofOfWorkLimit last).nBits
      else some last.nBits
    else
      let nHeightFirst := last.nHeight - (interval - 1)
      -- line 94: assert(nHeightFirst >= 0)
      if nHeightFirst < 0 then none
      else
        match last.GetAncestor nHeightFirst with
        -- line 96: assert(pindexFirst)
        | none => none
        | some first => CalculateNextWorkRequired last first.GetBlockTime params

/-- The function `CheckProofOfWork` (lines 126-143). -/
def CheckProofOfWork (hash : Nat) (nBits : Nat) (params : Params) : Bool :=
  let d := SetCompact nBits
  if d.fNegative || d.target == 0 || d.fOverflow
      || decide (d.target > UintToArith256 params.powLimit) then false
  else if UintToArith256 hash > d.target then false
  else true

/-! ## `BermudaGravityPull` -/

/-- The quantity `PastBlocksMin` of line 26: `uint64_t(nPowTargetTimespan * 25)` divided,
as an unsigned 64-bit value, by `nPowTargetSpacing`. -/
def PastBlocksMin (params : Params) : Nat :=
  ofInt64 (params.nPowTargetTimespan * 25) / ofInt64 params.nPowTargetSpacing

/-- The quantity `PastBlocksMax` of line 27. -/
def PastBlocksMax (params : Params) : Nat :=
  ofInt64 (params.nPowTargetTimespan * 70) / ofInt64 params.nPowTargetSpacing

/-- How control leaves the opening of `BermudaGravityPull` (lines 16-29): the two
divisions of lines 26-27 have no value for a zero spacing, line 29 returns a compact
value, or control goes on to the window computation that starts on line 31 with
`pindexLast->pprev`. -/
inductive BermudaStart where
  | divisionByZero
  | returned (nCompact : Nat)
  | window
deriving DecidableEq

/-- The opening of `BermudaGravityPull` (lines 16-29); `none` as first argument is the
null pointer.  The test of line 29 compares `(uint64_t)nHeight` with `PastBlocksMin`.
Lines 31-62 name undeclared variables and take differences of unrelated pointers, and
are not part of this embedding. -/
def BermudaGravityPull (pindexLast : Option CBlockIndex) (params : Params) : BermudaStart :=
  if ofInt64 params.nPowTargetSpacing = 0 then .divisionByZero
  else
    match pindexLast with
    | none => .returned (GetCompact (UintToArith256 params.powLimit))
    | some last =>
      if last.nHeight = 0 ∨ ofInt64 last.nHeight < PastBlocksMin params then
        .returned (GetCompact (UintToArith256 params.powLimit))
      else .window

/-- The conditional expression of line 44, applied to the value that
`PastRateTargetSeconds` holds after line 42. -/
def clampPastRateTargetSeconds (PastRateTargetSeconds : Int) : Int :=
  if PastRateTargetSeconds < 1 then 1
  else if PastRateTargetSeconds > 10 * PastRateTargetSeconds then 10 * PastRateTargetSeconds
  else PastRateTargetSeconds

/-! ## Chains -/

/-- The entry itself followed by its ancestors, nearest first. -/
def CBlockIndex.chain : CBlockIndex → List CBlockIndex
  | .root f => [.root f]
  | .child f p => .child f p :: p.chain

/-- Well-formed chain: the entry without `pprev` (genesis) has height `0` and every
other entry is one higher than its `pprev`. -/
def CBlockIndex.wellFormed : CBlockIndex → Bool
  | .root f => decide (f.nHeight = 0)
  | .child f p => decide (f.nHeight = p.nHeight + 1) && p.wellFormed

/-! ## Specification-side definitions -/

/-- The search the minimum-difficulty rule is described by: the first entry, from the
given one backward through its ancestors, whose height is a multiple of the interval
or whose compact value differs from `nProofOfWorkLimit`. -/
def firstRealTarget (interval : Int) (nProofOfWorkLimit : Nat) (b : CBlockIndex) :
    Option CBlockIndex :=
  b.chain.find? fun x =>
    decide (Int.tmod x.nHeight interval = 0) || (x.nBits != nProofOfWorkLimit)

/-- A target that the compact form holds without loss: a mantissa `m` of at most 23
bits shifted down by `3 - e` bytes (`e <= 3`) or up by `e - 3` bytes. -/
def Representable (t : Nat) : Prop :=
  ∃ m e, m < 2 ^ 23 ∧ t = if e ≤ 3 then m >>> (8 * (3 - e)) else m <<< (8 * (e - 3))

/-! ## Sample inputs -/

/-- Main-network style parameters: `powLimit = 0xffff * 2^208` (compact `0x1d00ffff`),
two-week timespan, ten-minute spacing, interval `2016`. -/
def mainParams : Params :=
  { powLimit := 0xffff * 2 ^ 208
    nPowTargetSpacing := 600
    nPowTargetTimespan := 1209600
    fPowAllowMinDifficultyBlocks := false
    fPowNoRetargeting := false }

/-- A well-formed chain of `n + 1` entries, heights `0 .. n`, the entry of height `h`
stamped `spacing * h`, all carrying the compact value `bits`. -/
def sampleChain (spacing : Int) (bits : Nat) : Nat → CBlockIndex
  | 0 => .root ⟨0, 0, bits⟩
  | n + 1 => .child ⟨(n : Int) + 1, spacing * ((n : Int) + 1), bits⟩ (sampleChain spacing bits n)

/-- Test-network style parameters: as `mainParams`, with the minimum-difficulty rule
switched on. -/
def testnetParams : Params :=
  { powLimit := 0xffff * 2 ^ 208
    nPowTargetSpacing := 600
    nPowTargetTimespan := 1209600
    fPowAllowMinDifficultyBlocks := true
    fPowNoRetargeting := false }

/-- Regression-test style parameters: `powLimit = 2^255 - 1` (compact `0x207fffff`),
minimum-difficulty rule on, retargeting off. -/
def regtestParams : Params :=
  { powLimit := 2 ^ 255 - 1
    nPowTargetSpacing := 600
    nPowTargetTimespan := 1209600
    fPowAllowMinDifficultyBlocks := true
    fPowNoRetargeting := true }

/-- A well-formed chain of 2016 entries (heights `0 .. 2015`) that closes the first
retarget period: every entry carries `bits`, genesis is stamped `0` and the last entry
exactly `1209600` seconds later. -/
def periodChain (bits : Nat) : CBlockIndex :=
  .child ⟨2015, 1209600, bits⟩ (sampleChain 600 bits 2014)

/-- The same chain with its last entry stamped `lastTime` instead. -/
def periodChainAt (lastTime : Int) (bits : Nat) : CBlockIndex :=
  .child ⟨2015, lastTime, bits⟩ (sampleChain 600 bits 2014)

/-- A two-entry chain whose tip (height 1) carries the compact value `bits` over a
genesis entry carrying `0x1d00ffff`. -/
def tipOnGenesis (bits : Nat) : CBlockIndex :=
  .child ⟨1, 600, bits⟩ (.root ⟨0, 0, 0x1d00ffff⟩)

/-- Parameters with the wide limit `powLimit = 2^255 - 1` and retargeting switched on. -/
def wideParams : Params :=
  { powLimit := 2 ^ 255 - 1
    nPowTargetSpacing := 600
    nPowTargetTimespan := 1209600
    fPowAllowMinDifficultyBlocks := false
    fPowNoRetargeting := false }

/-- A well-formed test-network chain of heights `0 .. 3`: two entries mined at the
real target `0x1c00ffff`, then two minimum-difficulty entries carrying the limit
`0x1d00ffff`. -/
def minDifficultyRun : CBlockIndex :=
  .child ⟨3, 4800, 0x1d00ffff⟩ (.child ⟨2, 2400, 0x1d00ffff⟩ (sampleChain 600 0x1c00ffff 1))

/-! ## Arithmetic reading of the codec -/

theorem shiftLeft_bytes (m k : Nat) : m <<< (8 * k) = m * 256 ^ k := by
  rw [Nat.shiftLeft_eq, pow_mul]; norm_num

theorem shiftRight_bytes (m k : Nat) : m >>> (8 * k) = m / 256 ^ k := by
  rw [Nat.shiftRight_eq_div_pow, pow_mul]; norm_num

theorem and_mantissa (c : Nat) : c &&& 0x007fffff = c % 2 ^ 23 := by
  have h := Nat.and_pow_two_sub_one_eq_mod c 23
  norm_num at h ⊢
  exact h

theorem and_sign_eq_zero_iff (c : Nat) : c &&& 0x00800000 = 0 ↔ c / 2 ^ 23 % 2 = 0 := by
  have h := Nat.and_two_pow c 23
  have e : (0x00800000 : Nat) = 2 ^ 23 := by norm_num
  rw [e, h, Nat.testBit_to_div_mod]
  by_cases hb : c / 2 ^ 23 % 2 = 1
  · simp [hb]
  · have : c / 2 ^ 23 % 2 = 0 := by omega
    simp [this]

theorem or_exponent (m e : Nat) (hm : m < 2 ^ 24) : m ||| (e <<< 24) = m + e * 2 ^ 24 := by
  rw [Nat.shiftLeft_eq, Nat.lor_comm, Nat.mul_comm e, ← Nat.mul_add_lt_is_or hm e]
  omega

/-! ## Byte length -/

theorem byteLenAux_lt (fuel : Nat) : ∀ t, t ≤ fuel → t < 256 ^ byteLenAux fuel t := by
  induction fuel with
  | zero =>
    intro t ht
    have : t = 0 := by omega
    subst this
    simp [byteLenAux]
  | succ f ih =>
    intro t ht
    by_cases h0 : t = 0
    · subst h0
      simp [byteLenAux]
    · have hd : t / 256 ≤ f := by omega
      have h := ih (t / 256) hd
      simp only [byteLenAux, h0, if_false, pow_succ]
      omega

theorem byteLenAux_le (fuel : Nat) : ∀ t n, t < 256 ^ n → byteLenAux fuel t ≤ n := by
  induction fuel with
  | zero => intro t n _; simp [byteLenAux]
  | succ f ih =>
    intro t n hn
    by_cases h0 : t = 0
    · subst h0
      simp [byteLenAux]
    · cases n with
      | zero =>
        simp at hn
        exact absurd hn h0
      | succ k =>
        have hk : t / 256 < 256 ^ k := by
          rw [pow_succ] at hn
          omega
        have h := ih (t / 256) k hk
        simp only [byteLenAux, h0, if_false]
        omega

/-- A value is below `256` to the power of its byte length. -/
theorem byteLen_lt (t : Nat) : t < 256 ^ byteLen t := byteLenAux_lt t t le_rfl

/-- The byte length is the least exponent with that property. -/
theorem byteLen_le (t n : Nat) (h : t < 256 ^ n) : byteLen t ≤ n := byteLenAux_le t t n h

theorem byteLen_ge (t : Nat) (h0 : t ≠ 0) : 256 ^ (byteLen t - 1) ≤ t := by
  by_contra hc
  have h1 := byteLen_le t (byteLen t - 1) (by omega)
  have h2 : byteLen t = 0 := by omega
  have h3 := byteLen_lt t
  rw [h2] at h3
  simp at h3
  exact h0 h3

/-! ## The codec in arithmetic form -/

/-- The three mantissa bytes cut out by the encoder are below `2 ^ 24`. -/
theorem mantissa_lt (t : Nat) :
    (if byteLen t ≤ 3 then t * 256 ^ (3 - byteLen t) else t / 256 ^ (byteLen t - 3))
      < 2 ^ 24 := by
  have hlt := byteLen_lt t
  by_cases h : byteLen t ≤ 3
  · rw [if_pos h]
    generalize byteLen t = n at hlt h
    interval_cases n <;> norm_num at hlt ⊢ <;> omega
  · rw [if_neg h]
    have hpos : 0 < 256 ^ (byteLen t - 3) := by positivity
    rw [Nat.div_lt_iff_lt_mul hpos]
    have e : 2 ^ 24 * 256 ^ (byteLen t - 3) = 256 ^ byteLen t := by
      have : byteLen t = 3 + (byteLen t - 3) := by omega
      conv_rhs => rw [this, pow_add]
      norm_num
    rw [e]
    exact hlt

/-- The encoder in arithmetic form. -/
theorem GetCompact_eq (t : Nat) :
    GetCompact t =
      if 2 ^ 23 ≤
          (if byteLen t ≤ 3 then t * 256 ^ (3 - byteLen t) else t / 256 ^ (byteLen t - 3))
      then (if byteLen t ≤ 3 then t * 256 ^ (3 - byteLen t)
              else t / 256 ^ (byteLen t - 3)) / 256 + (byteLen t + 1) * 2 ^ 24
      else (if byteLen t ≤ 3 then t * 256 ^ (3 - byteLen t)
              else t / 256 ^ (byteLen t - 3)) + byteLen t * 2 ^ 24 := by
  have hm := mantissa_lt t
  unfold GetCompact
  simp only [shiftLeft_bytes, shiftRight_bytes]
  generalize (if byteLen t ≤ 3 then t * 256 ^ (3 - byteLen t)
    else t / 256 ^ (byteLen t - 3)) = m at hm ⊢
  have hs := and_sign_eq_zero_iff m
  have h8 : m >>> 8 = m / 256 := by
    rw [Nat.shiftRight_eq_div_pow]
  by_cases hb : 2 ^ 23 ≤ m
  · have hne : m &&& 0x00800000 ≠ 0 := by
      intro h0
      have := hs.mp h0
      omega
    rw [if_pos hne, if_pos hb, h8, or_exponent _ _ (by omega)]
  · have he : m &&& 0x00800000 = 0 := by
      apply hs.mpr
      have : m / 2 ^ 23 = 0 := by omega
      rw [this]
    rw [if_neg (by simpa using he), if_neg hb, or_exponent _ _ hm]

/-- The decoder on a compact value given as mantissa (below `2 ^ 23`) plus exponent
byte. -/
theorem SetCompact_add (m e : Nat) (hm : m < 2 ^ 23) :
    SetCompact (m + e * 2 ^ 24) =
      { target := if e ≤ 3 then m / 256 ^ (3 - e) else (m * 256 ^ (e - 3)) % 2 ^ 256
        fNegative := false
        fOverflow := m != 0 && (decide (e > 34) || decide (2 ^ 256 ≤ m * 256 ^ (e - 3))) } := by
  have h1 : (m + e * 2 ^ 24) >>> 24 = e := by
    rw [Nat.shiftRight_eq_div_pow]
    omega
  have h2 : (m + e * 2 ^ 24) &&& 0x007fffff = m := by
    rw [and_mantissa]
    omega
  have h3 : (m + e * 2 ^ 24) &&& 0x00800000 = 0 := by
    rw [and_sign_eq_zero_iff]
    omega
  unfold SetCompact
  simp only [h1, h2, h3, shiftLeft_bytes, shiftRight_bytes]
  rfl

/-- Shape of an encoding: a mantissa below `2 ^ 23` under an exponent byte, which
together denote `t` with its `k` low bytes cleared, where `k` is no larger than needed
to bring `t` down to 23 bits. -/
theorem GetCompact_shape (t : Nat) :
    ∃ m e k, m < 2 ^ 23 ∧ GetCompact t = m + e * 2 ^ 24 ∧ e ≤ byteLen t + 1 ∧
      (if e ≤ 3 then m / 256 ^ (3 - e) else m * 256 ^ (e - 3)) = t / 256 ^ k * 256 ^ k ∧
      ∀ j, t < 2 ^ 23 * 256 ^ j → k ≤ j := by
  have hm := mantissa_lt t
  have hlt := byteLen_lt t
  rw [GetCompact_eq]
  by_cases hn : byteLen t ≤ 3
  · simp only [if_pos hn] at hm ⊢
    generalize byteLen t = n at hm hlt hn ⊢
    by_cases hb : 2 ^ 23 ≤ t * 256 ^ (3 - n)
    · rw [if_pos hb]
      interval_cases n
      · norm_num at hlt hb
        omega
      · refine ⟨t * 256, 2, 0, ?_, ?_, ?_, ?_, ?_⟩ <;> norm_num at hlt hb hm ⊢ <;> omega
      · refine ⟨t, 3, 0, ?_, ?_, ?_, ?_, ?_⟩ <;> norm_num at hlt hb hm ⊢
        omega
      · refine ⟨t / 256, 4, 1, ?_, ?_, ?_, ?_, ?_⟩
        · norm_num at hlt hb hm ⊢; omega
        · norm_num at hlt hb hm ⊢
        · norm_num
        · norm_num
        · intro j hj
          norm_num at hb
          by_contra hc
          have : j = 0 := by omega
          subst this
          norm_num at hj
          omega
    · rw [if_neg hb]
      refine ⟨t * 256 ^ (3 - n), n, 0, by omega, rfl, by omega, ?_, by omega⟩
      rw [if_pos hn]
      have hpos : 0 < 256 ^ (3 - n) := by positivity
      rw [Nat.mul_div_cancel _ hpos]
      simp
  · simp only [if_neg hn] at hm ⊢
    have hpos : 0 < 256 ^ (byteLen t - 3) := by positivity
    by_cases hb : 2 ^ 23 ≤ t / 256 ^ (byteLen t - 3)
    · rw [if_pos hb]
      have hdd : t / 256 ^ (byteLen t - 3) / 256 = t / 256 ^ (byteLen t - 2) := by
        rw [Nat.div_div_eq_div_mul]
        have : byteLen t - 2 = (byteLen t - 3) + 1 := by omega
        rw [this, pow_succ]
      refine ⟨t / 256 ^ (byteLen t - 2), byteLen t + 1, byteLen t - 2, ?_, ?_, le_rfl,
        ?_, ?_⟩
      · rw [← hdd]; omega
      · rw [hdd]
      · have h4 : ¬ byteLen t + 1 ≤ 3 := by omega
        rw [if_neg h4]
        have : byteLen t + 1 - 3 = byteLen t - 2 := by omega
        rw [this]
      · intro j hj
        by_contra hc
        have hjle : j ≤ byteLen t - 3 := by omega
        have hpow : 256 ^ j ≤ 256 ^ (byteLen t - 3) := Nat.pow_le_pow_right (by norm_num) hjle
        have h1 : 2 ^ 23 * 256 ^ (byteLen t - 3) ≤ t := by
          have := (Nat.le_div_iff_mul_le hpos).mp hb
          exact this
        have h2 : 2 ^ 23 * 256 ^ j ≤ 2 ^ 23 * 256 ^ (byteLen t - 3) :=
          Nat.mul_le_mul_left _ hpow
        omega
    · rw [if_neg hb]
      refine ⟨t / 256 ^ (byteLen t - 3), byteLen t, byteLen t - 3, by omega, rfl, by omega,
        ?_, ?_⟩
      · rw [if_neg hn]
      · intro j hj
        by_contra hc
        have hjle : 3 + j ≤ byteLen t - 1 := by omega
        have hpow : 256 ^ (3 + j) ≤ 256 ^ (byteLen t - 1) :=
          Nat.pow_le_pow_right (by norm_num) hjle
        have hge := byteLen_ge t (by
          intro h0
          subst h0
          have := byteLen_le 0 0 (by norm_num)
          omega)
        rw [pow_add] at hpow
        have h3 : 2 ^ 23 * 256 ^ j ≤ 256 ^ 3 * 256 ^ j :=
          Nat.mul_le_mul_right _ (by norm_num)
        omega


/-- Decoding an encoding never gives more than the encoded target. -/
theorem SetCompact_GetCompact_le (t : Nat) : (SetCompact (GetCompact t)).target ≤ t := by
  obtain ⟨m, e, k, hm, hc, _, hv, _⟩ := GetCompact_shape t
  rw [hc, SetCompact_add m e hm]
  show (if e ≤ 3 then m / 256 ^ (3 - e) else (m * 256 ^ (e - 3)) % 2 ^ 256) ≤ t
  have hk : t / 256 ^ k * 256 ^ k ≤ t := Nat.div_mul_le_self t _
  by_cases he : e ≤ 3
  · rw [if_pos he] at hv ⊢
    omega
  · rw [if_neg he] at hv ⊢
    have := Nat.mod_le (m * 256 ^ (e - 3)) (2 ^ 256)
    omega

/-- The sign flag of a decoded encoding is clear. -/
theorem SetCompact_GetCompact_fNegative (t : Nat) :
    (SetCompact (GetCompact t)).fNegative = false := by
  obtain ⟨m, e, k, hm, hc, _, _, _⟩ := GetCompact_shape t
  rw [hc, SetCompact_add m e hm]

/-- The overflow flag of a decoded encoding of a 256-bit value is clear. -/
theorem SetCompact_GetCompact_fOverflow (t : Nat) (h : t < 2 ^ 256) :
    (SetCompact (GetCompact t)).fOverflow = false := by
  obtain ⟨m, e, k, hm, hc, he, hv, _⟩ := GetCompact_shape t
  rw [hc, SetCompact_add m e hm]
  have hb : byteLen t ≤ 32 := byteLen_le t 32 (by norm_num at h ⊢; exact h)
  have h34 : ¬ e > 34 := by omega
  have hk : t / 256 ^ k * 256 ^ k ≤ t := Nat.div_mul_le_self t _
  have hfit : ¬ 2 ^ 256 ≤ m * 256 ^ (e - 3) := by
    by_cases he3 : e ≤ 3
    · have : e - 3 = 0 := by omega
      rw [this]
      omega
    · rw [if_neg he3] at hv
      omega
  show (m != 0 && (decide (e > 34) || decide (2 ^ 256 ≤ m * 256 ^ (e - 3)))) = false
  rw [decide_eq_false h34, decide_eq_false hfit]
  simp

/-- A 256-bit value that is a 23-bit mantissa followed by `j` zero bytes is decoded
from its encoding exactly. -/
theorem SetCompact_GetCompact_exact (t j : Nat) (h : t < 2 ^ 256) (hj : t < 2 ^ 23 * 256 ^ j)
    (hd : 256 ^ j ∣ t) : (SetCompact (GetCompact t)).target = t := by
  obtain ⟨m, e, k, hm, hc, _, hv, hmin⟩ := GetCompact_shape t
  rw [hc, SetCompact_add m e hm]
  show (if e ≤ 3 then m / 256 ^ (3 - e) else (m * 256 ^ (e - 3)) % 2 ^ 256) = t
  have hkj : k ≤ j := hmin j hj
  have hdk : 256 ^ k ∣ t := dvd_trans (pow_dvd_pow 256 hkj) hd
  have hk : t / 256 ^ k * 256 ^ k = t := Nat.div_mul_cancel hdk
  rw [hk] at hv
  by_cases he : e ≤ 3
  · rw [if_pos he] at hv ⊢
    exact hv
  · rw [if_neg he] at hv ⊢
    rw [hv]
    exact Nat.mod_eq_of_lt h

/-! ## Chain lemmas -/

theorem self_mem_chain (b : CBlockIndex) : b ∈ b.chain := by
  cases b <;> simp [CBlockIndex.chain]

theorem lastNonMinDifficulty_mem (interval : Int) (lim : Nat) (b : CBlockIndex) :
    lastNonMinDifficulty interval lim b ∈ b.chain := by
  induction b with
  | root f => simp [lastNonMinDifficulty, CBlockIndex.chain]
  | child f p ih =>
    unfold lastNonMinDifficulty
    split
    · simp only [CBlockIndex.chain, List.mem_cons]
      exact Or.inr ih
    · exact self_mem_chain _

/-! ## The verifier -/

/-- C1. `CheckProofOfWork(hash, nBits, params)` is true exactly when decoding `nBits`
gives a non-negative, non-overflowing, non-zero target that is at most `powLimit` and
the hash, as a 256-bit unsigned integer, is at most that target; in every other case
the function returns false (it is total: it never aborts). -/
theorem CheckProofOfWork_true_iff (hash nBits : Nat) (params : Params) :
    (CheckProofOfWork hash nBits params = true ↔
      ((SetCompact nBits).fNegative = false ∧ (SetCompact nBits).fOverflow = false ∧
        (SetCompact nBits).target ≠ 0 ∧ (SetCompact nBits).target ≤ params.powLimit ∧
        hash ≤ (SetCompact nBits).target)) ∧
    (¬ ((SetCompact nBits).fNegative = false ∧ (SetCompact nBits).fOverflow = false ∧
        (SetCompact nBits).target ≠ 0 ∧ (SetCompact nBits).target ≤ params.powLimit ∧
        hash ≤ (SetCompact nBits).target) →
      CheckProofOfWork hash nBits params = false) := by
  have key : CheckProofOfWork hash nBits params = true ↔
      ((SetCompact nBits).fNegative = false ∧ (SetCompact nBits).fOverflow = false ∧
        (SetCompact nBits).target ≠ 0 ∧ (SetCompact nBits).target ≤ params.powLimit ∧
        hash ≤ (SetCompact nBits).target) := by
    unfold CheckProofOfWork UintToArith256
    generalize SetCompact nBits = d
    rcases d with ⟨t, fn, fo⟩
    cases fn <;> cases fo <;> simp
    omega
  refine ⟨key, fun hn => ?_⟩
  cases hc : CheckProofOfWork hash nBits params
  · rfl
  · exact absurd (key.mp hc) hn

/-! ## The periodic retargeter -/

/-- A value handed back by `CalculateNextWorkRequired` decodes to at most `powLimit`
as soon as the last block's own compact value does. -/
theorem CalculateNextWorkRequired_le_powLimit (last : CBlockIndex) (ft : Int)
    (params : Params) (r : Nat)
    (hlast : (SetCompact last.nBits).target ≤ params.powLimit)
    (h : CalculateNextWorkRequired last ft params = some r) :
    (SetCompact r).target ≤ params.powLimit := by
  unfold CalculateNextWorkRequired at h
  by_cases hno : params.fPowNoRetargeting = true
  · rw [if_pos hno] at h
    cases h
    exact hlast
  · rw [if_neg hno] at h
    simp only [UintToArith256] at h
    split at h
    · cases h
    · cases h
      refine le_trans (SetCompact_GetCompact_le _) ?_
      split <;> omega

/-- C2 fails as stated: off a retarget boundary the compact value of the last block is
handed back as it is.  With main-network parameters and a tip of height 1 carrying
`0x1e00ffff`, the result is `0x1e00ffff`, which decodes to `0xffff * 2^216`, above
`powLimit = 0xffff * 2^208`. -/
theorem GetNextWorkRequired_above_powLimit :
    GetNextWorkRequired (some (tipOnGenesis 0x1e00ffff)) ⟨1200⟩ mainParams = some 0x1e00ffff ∧
      (SetCompact 0x1e00ffff).target = 0xffff * 2 ^ 216 ∧
      ¬ (SetCompact 0x1e00ffff).target ≤ mainParams.powLimit := by
  decide

/-- C2 (amended). When every block of the input history carries a compact value that
decodes to at most `powLimit`, every compact value returned by `GetNextWorkRequired`
decodes to a target that does not exceed `powLimit`. -/
theorem GetNextWorkRequired_le_powLimit (last : CBlockIndex) (pblock : CBlockHeader)
    (params : Params) (r : Nat)
    (hist : ∀ b ∈ last.chain, (SetCompact b.nBits).target ≤ params.powLimit)
    (h : GetNextWorkRequired (some last) pblock params = some r) :
    (SetCompact r).target ≤ params.powLimit := by
  simp only [GetNextWorkRequired, UintToArith256] at h
  split at h
  · cases h
  · split at h
    · split at h
      · split at h
        · cases h
          exact le_trans (SetCompact_GetCompact_le _) le_rfl
        · cases h
          exact hist _ (lastNonMinDifficulty_mem _ _ _)
      · cases h
        exact hist _ (self_mem_chain _)
    · split at h
      · cases h
      · split at h
        · cases h
        · exact CalculateNextWorkRequired_le_powLimit last _ params r
            (hist _ (self_mem_chain _)) h

/-- Witness for C2 (amended): a six-entry main-network chain at the limit. -/
theorem GetNextWorkRequired_le_powLimit_witness :
    (∀ b ∈ (sampleChain 600 0x1d00ffff 5).chain,
        (SetCompact b.nBits).target ≤ mainParams.powLimit) ∧
      GetNextWorkRequired (some (sampleChain 600 0x1d00ffff 5)) ⟨3600⟩ mainParams
        = some 0x1d00ffff ∧
      (SetCompact 0x1d00ffff).target ≤ mainParams.powLimit :=
  ⟨by decide, by decide,
    GetNextWorkRequired_le_powLimit (sampleChain 600 0x1d00ffff 5) ⟨3600⟩ mainParams
      0x1d00ffff (by decide) (by decide)⟩

/-- C3 fails as stated: the no-retargeting check sits inside
`CalculateNextWorkRequired`, which is reached only at a retarget boundary.  With
regression-test parameters (`fPowNoRetargeting = true`, minimum-difficulty rule on), a
tip of height 1 carrying `0x1d00ffff` and a candidate stamped more than twice the
spacing after it, the result is `encode(powLimit) = 0x207fffff`, not the tip's value. -/
theorem regtest_tip_gets_powLimit :
    regtestParams.fPowNoRetargeting = true ∧
      (tipOnGenesis 0x1d00ffff).nBits = 0x1d00ffff ∧
      GetNextWorkRequired (some (tipOnGenesis 0x1d00ffff)) ⟨1801⟩ regtestParams
        = some 0x207fffff ∧
      GetNextWorkRequired (some (tipOnGenesis 0x1d00ffff)) ⟨1801⟩ regtestParams
        ≠ some (tipOnGenesis 0x1d00ffff).nBits := by
  decide

/-- C3 (amended). With `fPowNoRetargeting = true` and a non-zero adjustment interval,
`GetNextWorkRequired` returns `lastBlock.nBits` unchanged at a retarget boundary (the
first block of the period being found at a non-negative height), and off the boundary
when `fPowAllowMinDifficultyBlocks = false`: the no-retargeting check is made by
`CalculateNextWorkRequired`, after the off-boundary rules. -/
theorem GetNextWorkRequired_noRetargeting (last : CBlockIndex) (pblock : CBlockHeader)
    (params : Params) (hno : params.fPowNoRetargeting = true)
    (hint : params.DifficultyAdjustmentInterval ≠ 0)
    (hoff : Int.tmod (last.nHeight + 1) params.DifficultyAdjustmentInterval ≠ 0 →
      params.fPowAllowMinDifficultyBlocks = false)
    (hon : Int.tmod (last.nHeight + 1) params.DifficultyAdjustmentInterval = 0 →
      0 ≤ last.nHeight - (params.DifficultyAdjustmentInterval - 1) ∧
      (last.GetAncestor (last.nHeight - (params.DifficultyAdjustmentInterval - 1))).isSome
        = true) :
    GetNextWorkRequired (some last) pblock params = some last.nBits := by
  simp only [GetNextWorkRequired, if_neg hint]
  by_cases hb : Int.tmod (last.nHeight + 1) params.DifficultyAdjustmentInterval = 0
  · obtain ⟨h0, hanc⟩ := hon hb
    rw [if_neg (by simpa using hb), if_neg (by omega)]
    cases ha : last.GetAncestor (last.nHeight - (params.DifficultyAdjustmentInterval - 1)) with
    | none => simp [ha] at hanc
    | some first => simp [CalculateNextWorkRequired, hno]
  · rw [if_pos hb]
    simp [hoff hb]

/-- Witness for C3 (amended): the regression-test parameters on a chain that closes
the first retarget period. -/
theorem GetNextWorkRequired_noRetargeting_witness :
    regtestParams.fPowNoRetargeting = true ∧
      GetNextWorkRequired (some (periodChain 0x1d00ffff)) ⟨1209601⟩ regtestParams
        = some (periodChain 0x1d00ffff).nBits :=
  ⟨by decide,
    GetNextWorkRequired_noRetargeting (periodChain 0x1d00ffff) ⟨1209601⟩ regtestParams
      (by decide) (by decide) (by decide) (by
        set_option maxRecDepth 100000 in decide)⟩

/-- C4 fails as stated: at a retarget boundary the minimum-difficulty rule is not
consulted.  With test-network parameters, a 2016-entry chain carrying `0x1c00ffff` whose
last entry (height 2015) is stamped exactly one timespan after genesis, and a candidate
stamped 1201 seconds later, the result is the retargeted `0x1c00ffff`, not
`encode(powLimit) = 0x1d00ffff`. -/
theorem GetNextWorkRequired_late_at_boundary :
    testnetParams.fPowAllowMinDifficultyBlocks = true ∧
      (⟨1210801⟩ : CBlockHeader).GetBlockTime
        > (periodChain 0x1c00ffff).GetBlockTime + 2 * testnetParams.nPowTargetSpacing ∧
      GetNextWorkRequired (some (periodChain 0x1c00ffff)) ⟨1210801⟩ testnetParams
        = some 0x1c00ffff ∧
      GetCompact testnetParams.powLimit = 0x1d00ffff ∧
      GetNextWorkRequired (some (periodChain 0x1c00ffff)) ⟨1210801⟩ testnetParams
        ≠ some (GetCompact testnetParams.powLimit) := by
  set_option maxRecDepth 100000 in decide

/-- C4 (amended). With `fPowAllowMinDifficultyBlocks = true`, a non-zero adjustment
interval, a last block off the retarget boundary (`(height + 1) % interval != 0`) and a
candidate timestamp above `lastBlock.timestamp + 2 * targetSpacing`,
`GetNextWorkRequired` returns `encode(powLimit)`. -/
theorem GetNextWorkRequired_late_off_boundary (last : CBlockIndex) (pblock : CBlockHeader)
    (params : Params) (hmin : params.fPowAllowMinDifficultyBlocks = true)
    (hint : params.DifficultyAdjustmentInterval ≠ 0)
    (hoff : Int.tmod (last.nHeight + 1) params.DifficultyAdjustmentInterval ≠ 0)
    (hlate : pblock.GetBlockTime > last.GetBlockTime + 2 * params.nPowTargetSpacing) :
    GetNextWorkRequired (some last) pblock params = some (GetCompact params.powLimit) := by
  have hl : pblock.GetBlockTime > last.GetBlockTime + params.nPowTargetSpacing * 2 := by
    omega
  simp [GetNextWorkRequired, UintToArith256, hint, hoff, hmin, hl]

/-- Witness for C4 (amended): test-network parameters, a tip of height 5 and a
candidate stamped 1201 seconds after it. -/
theorem GetNextWorkRequired_late_off_boundary_witness :
    (⟨4201⟩ : CBlockHeader).GetBlockTime
        > (sampleChain 600 0x1c00ffff 5).GetBlockTime + 2 * testnetParams.nPowTargetSpacing ∧
      GetNextWorkRequired (some (sampleChain 600 0x1c00ffff 5)) ⟨4201⟩ testnetParams
        = some (GetCompact testnetParams.powLimit) :=
  ⟨by decide,
    GetNextWorkRequired_late_off_boundary (sampleChain 600 0x1c00ffff 5) ⟨4201⟩ testnetParams
      (by decide) (by decide) (by decide) (by decide)⟩

/-- C5. With a positive adjustment interval and `fPowAllowMinDifficultyBlocks = false`,
for a last block with `(height + 1) % interval != 0`, `GetNextWorkRequired` returns
exactly `lastBlock.nBits`, whatever the timestamps of the last block, of its ancestors
and of the candidate header. -/
theorem GetNextWorkRequired_off_boundary (last : CBlockIndex) (pblock : CBlockHeader)
    (params : Params) (hint : 0 < params.DifficultyAdjustmentInterval)
    (hmin : params.fPowAllowMinDifficultyBlocks = false)
    (hoff : Int.tmod (last.nHeight + 1) params.DifficultyAdjustmentInterval ≠ 0) :
    GetNextWorkRequired (some last) pblock params = some last.nBits := by
  have h0 : params.DifficultyAdjustmentInterval ≠ 0 := by omega
  simp [GetNextWorkRequired, h0, hoff, hmin]

/-- Witness for C5: main-network parameters at height `2016 + 5`. -/
theorem GetNextWorkRequired_off_boundary_witness :
    0 < mainParams.DifficultyAdjustmentInterval ∧
      Int.tmod ((sampleChain 600 0x1c00ffff 2021).nHeight + 1)
        mainParams.DifficultyAdjustmentInterval ≠ 0 ∧
      GetNextWorkRequired (some (sampleChain 600 0x1c00ffff 2021)) ⟨0⟩ mainParams
        = some 0x1c00ffff :=
  ⟨by decide, by decide,
    GetNextWorkRequired_off_boundary (sampleChain 600 0x1c00ffff 2021) ⟨0⟩ mainParams
      (by decide) (by decide) (by decide)⟩

/-- On a well-formed chain the loop of lines 83-85 stops at the first entry whose
height is a multiple of the interval or whose compact value is not the limit. -/
theorem firstRealTarget_eq (interval : Int) (lim : Nat) (b : CBlockIndex)
    (wf : b.wellFormed = true) :
    firstRealTarget interval lim b = some (lastNonMinDifficulty interval lim b) := by
  induction b with
  | root f =>
    simp only [CBlockIndex.wellFormed, decide_eq_true_eq] at wf
    simp [firstRealTarget, CBlockIndex.chain, lastNonMinDifficulty, CBlockIndex.nHeight,
      CBlockIndex.fields, wf]
  | child f p ih =>
    simp only [CBlockIndex.wellFormed, Bool.and_eq_true, decide_eq_true_eq] at wf
    have ihp := ih wf.2
    unfold firstRealTarget at ihp ⊢
    unfold lastNonMinDifficulty
    by_cases hc : Int.tmod f.nHeight interval ≠ 0 ∧ f.nBits = lim
    · rw [if_pos hc, CBlockIndex.chain, List.find?_cons_of_neg]
      · exact ihp
      · simp [CBlockIndex.nHeight, CBlockIndex.nBits, CBlockIndex.fields, hc.1, hc.2]
    · rw [if_neg hc, CBlockIndex.chain, List.find?_cons_of_pos]
      simp only [CBlockIndex.nHeight, CBlockIndex.nBits, CBlockIndex.fields, Bool.or_eq_true,
        decide_eq_true_eq, bne_iff_ne, ne_eq]
      by_cases h1 : Int.tmod f.nHeight interval = 0
      · exact Or.inl h1
      · exact Or.inr (fun h2 => hc ⟨h1, h2⟩)

/-- C6. On a well-formed chain, with a positive adjustment interval,
`fPowAllowMinDifficultyBlocks = true` and a last block off the retarget boundary:
a candidate stamped later than `lastBlock.timestamp + 2 * targetSpacing` gets
`encode(powLimit)`; otherwise (equality included) the result is the `nBits` of the
first block, from the last block backward, whose height is a multiple of the interval
or whose `nBits` differs from `encode(powLimit)`, and such a block always exists. -/
theorem GetNextWorkRequired_minDifficulty (last : CBlockIndex) (pblock : CBlockHeader)
    (params : Params) (wf : last.wellFormed = true)
    (hint : 0 < params.DifficultyAdjustmentInterval)
    (hmin : params.fPowAllowMinDifficultyBlocks = true)
    (hoff : Int.tmod (last.nHeight + 1) params.DifficultyAdjustmentInterval ≠ 0) :
    (pblock.GetBlockTime > last.GetBlockTime + 2 * params.nPowTargetSpacing →
      GetNextWorkRequired (some last) pblock params = some (GetCompact params.powLimit)) ∧
    (¬ pblock.GetBlockTime > last.GetBlockTime + 2 * params.nPowTargetSpacing →
      ∃ b, firstRealTarget params.DifficultyAdjustmentInterval
            (GetCompact params.powLimit) last = some b ∧
          (Int.tmod b.nHeight params.DifficultyAdjustmentInterval = 0 ∨
            b.nBits ≠ GetCompact params.powLimit) ∧
          GetNextWorkRequired (some last) pblock params = some b.nBits) := by
  have h0 : params.DifficultyAdjustmentInterval ≠ 0 := by omega
  constructor
  · intro hlate
    have hl : pblock.GetBlockTime > last.GetBlockTime + params.nPowTargetSpacing * 2 := by
      omega
    simp [GetNextWorkRequired, UintToArith256, h0, hoff, hmin, hl]
  · intro hnot
    have hl : ¬ pblock.GetBlockTime > last.GetBlockTime + params.nPowTargetSpacing * 2 := by
      omega
    have hf := firstRealTarget_eq params.DifficultyAdjustmentInterval
      (GetCompact params.powLimit) last wf
    refine ⟨_, hf, ?_, ?_⟩
    · have hp := List.find?_some hf
      simp only [Bool.or_eq_true, decide_eq_true_eq, bne_iff_ne, ne_eq] at hp
      exact hp
    · simp [GetNextWorkRequired, UintToArith256, h0, hoff, hmin, hl]

/-- Witness for C6: test-network parameters on a chain whose two newest entries are
minimum-difficulty blocks, with a candidate stamped exactly twice the spacing after the
tip (not late): the walk goes back to the entry of height 1 and returns its
`0x1c00ffff`. -/
theorem GetNextWorkRequired_minDifficulty_witness :
    minDifficultyRun.wellFormed = true ∧
      ¬ ((⟨6000⟩ : CBlockHeader).GetBlockTime >
          minDifficultyRun.GetBlockTime + 2 * testnetParams.nPowTargetSpacing) ∧
      GetNextWorkRequired (some minDifficultyRun) ⟨6000⟩ testnetParams = some 0x1c00ffff ∧
      ∃ b, firstRealTarget testnetParams.DifficultyAdjustmentInterval
            (GetCompact testnetParams.powLimit) minDifficultyRun = some b ∧
          (Int.tmod b.nHeight testnetParams.DifficultyAdjustmentInterval = 0 ∨
            b.nBits ≠ GetCompact testnetParams.powLimit) ∧
          GetNextWorkRequired (some minDifficultyRun) ⟨6000⟩ testnetParams = some b.nBits :=
  ⟨by decide, by decide, by decide,
    (GetNextWorkRequired_minDifficulty minDifficultyRun ⟨6000⟩ testnetParams
      (by decide) (by decide) (by decide) (by decide)).2 (by decide)⟩

/-! ## The retarget computation -/

/-- The two clamping statements as a minimum of a maximum. -/
theorem nActualTimespan_eq (last : CBlockIndex) (ft : Int) (params : Params)
    (hT : 0 ≤ params.nPowTargetTimespan) :
    nActualTimespan last ft params =
      min (max (last.GetBlockTime - ft) (params.nPowTargetTimespan / 4))
        (params.nPowTargetTimespan * 4) := by
  unfold nActualTimespan
  rw [Int.tdiv_eq_ediv hT (by norm_num)]
  simp only []
  split <;> split <;> omega

/-- The retarget for a non-negative multiplier and a positive divisor, when the product
stays within 256 bits. -/
theorem mul256_div256 (t : Nat) (a T : Int) (ha : 0 ≤ a) (hT : 0 < T)
    (hfit : t * a.toNat < 2 ^ 256) :
    div256 (mul256 t a) T = some (t * a.toNat / T.toNat) := by
  have e1 : ofInt64 a = a.toNat := by simp [ofInt64, ha]
  have e2 : ofInt64 T = T.toNat := by simp [ofInt64, le_of_lt hT]
  have hT' : T.toNat ≠ 0 := by omega
  unfold div256 mul256
  rw [e1, e2, if_neg hT', Nat.mod_eq_of_lt hfit]

/-- C7 fails as stated: the 256-bit product of the retarget wraps.  With
`powLimit = 2^255 - 1` (compact `0x207fffff`), spacing 600, timespan 1209600, and a
2016-entry chain carrying `0x207fffff` whose first and last entries are exactly one
timespan apart, the result is `0x1e0cdebb`, which is neither the last block's
`0x207fffff` nor `encode(decode(0x207fffff)) = 0x207fffff`. -/
theorem period_result_drifts :
    wideParams.DifficultyAdjustmentInterval = 2016 ∧ wideParams.nPowTargetSpacing = 600 ∧
      (periodChain 0x207fffff).nHeight + 1 = 2016 * 1 ∧
      (periodChain 0x207fffff).GetAncestor ((periodChain 0x207fffff).nHeight - 2015)
        = some (sampleChain 600 0x207fffff 0) ∧
      (periodChain 0x207fffff).GetBlockTime - (sampleChain 600 0x207fffff 0).GetBlockTime
        = wideParams.nPowTargetTimespan ∧
      GetNextWorkRequired (some (periodChain 0x207fffff)) ⟨1210200⟩ wideParams
        = some 0x1e0cdebb ∧
      (periodChain 0x207fffff).nBits = 0x207fffff ∧
      GetCompact (SetCompact (periodChain 0x207fffff).nBits).target = 0x207fffff := by
  set_option maxRecDepth 100000 in decide

/-- C7 (amended). With `targetSpacing = 600` and `targetTimespan = 1209600` (interval
2016), a last block that closes a retarget period (`height + 1 = 2016 k`, `k > 0`), the
ancestor `firstBlock` at height `height - 2015` stamped exactly `targetTimespan` before
it, and a decoded target `t` of the last block with `t <= powLimit` and
`t * targetTimespan < 2^256`: `GetNextWorkRequired` returns `lastBlock.nBits` itself
(retargeting off) or exactly `encode(decode(lastBlock.nBits))` (retargeting on). -/
theorem GetNextWorkRequired_exact_period (last first : CBlockIndex) (pblock : CBlockHeader)
    (params : Params) (k : Int)
    (hS : params.nPowTargetSpacing = 600) (hT : params.nPowTargetTimespan = 1209600)
    (hk : 0 < k) (hh : last.nHeight + 1 = 2016 * k)
    (hfirst : last.GetAncestor (last.nHeight - 2015) = some first)
    (htime : last.GetBlockTime - first.GetBlockTime = params.nPowTargetTimespan)
    (hle : (SetCompact last.nBits).target ≤ params.powLimit)
    (hfit : (SetCompact last.nBits).target * 1209600 < 2 ^ 256) :
    GetNextWorkRequired (some last) pblock params =
      some (if params.fPowNoRetargeting = true then last.nBits
        else GetCompact (SetCompact last.nBits).target) := by
  have hI : params.DifficultyAdjustmentInterval = 2016 := by
    simp only [Params.DifficultyAdjustmentInterval, hS, hT]
    decide
  have hmod : Int.tmod (last.nHeight + 1) 2016 = 0 := by
    rw [hh]
    exact Int.mul_tmod_right _ _
  have hF : last.nHeight - (2016 - 1) = last.nHeight - 2015 := by omega
  have hnn : ¬ (last.nHeight - 2015 < 0) := by omega
  have h2016 : ¬ ((2016 : Int) = 0) := by decide
  simp only [GetNextWorkRequired, hI, if_neg h2016, hmod, ne_eq, not_true_eq_false, if_false,
    hF, if_neg hnn, hfirst]
  unfold CalculateNextWorkRequired
  by_cases hno : params.fPowNoRetargeting = true
  · rw [if_pos hno, if_pos hno]
  · rw [if_neg hno, if_neg hno]
    have ha : nActualTimespan last first.GetBlockTime params = 1209600 := by
      rw [nActualTimespan_eq last _ params (by omega), htime, hT]
      decide
    have hmd := mul256_div256 (SetCompact last.nBits).target 1209600 1209600 (by decide)
      (by decide) hfit
    have hq : (SetCompact last.nBits).target * (1209600 : Int).toNat / (1209600 : Int).toNat
        = (SetCompact last.nBits).target := Nat.mul_div_cancel _ (by decide)
    rw [hq] at hmd
    simp only [ha, hT, hmd, UintToArith256]
    rw [if_neg (by omega)]

/-- Witness for C7 (amended): main-network parameters on a 2016-entry chain carrying
`0x1c00ffff` whose first and last entries are exactly one timespan apart. -/
theorem GetNextWorkRequired_exact_period_witness :
    (periodChain 0x1c00ffff).GetAncestor ((periodChain 0x1c00ffff).nHeight - 2015)
        = some (sampleChain 600 0x1c00ffff 0) ∧
      (periodChain 0x1c00ffff).GetBlockTime - (sampleChain 600 0x1c00ffff 0).GetBlockTime
        = mainParams.nPowTargetTimespan ∧
      GetNextWorkRequired (some (periodChain 0x1c00ffff)) ⟨1210200⟩ mainParams
        = some 0x1c00ffff :=
  ⟨by set_option maxRecDepth 100000 in decide, by decide,
    GetNextWorkRequired_exact_period (periodChain 0x1c00ffff) (sampleChain 600 0x1c00ffff 0)
      ⟨1210200⟩ mainParams 1 (by decide) (by decide) (by decide) (by decide)
      (by set_option maxRecDepth 100000 in decide) (by decide) (by decide) (by decide)⟩

/-- C8 fails as stated: the 256-bit product wraps.  With `powLimit = 2^255 - 1`, a last
block carrying `0x2000ffff` (target `0xffff * 2^232 <= powLimit`) and an observed
timespan equal to `targetTimespan = 1209600`, the exact formula gives
`encode(min(powLimit, t * 1209600 / 1209600)) = 0x2000ffff`, whereas the function
returns `0x1e0cdebb`: `t * 1209600` needs more than 256 bits. -/
theorem CalculateNextWorkRequired_wraps :
    wideParams.fPowNoRetargeting = false ∧ 0 < wideParams.nPowTargetTimespan ∧
      (SetCompact (periodChain 0x2000ffff).nBits).target = 0xffff * 2 ^ 232 ∧
      (SetCompact (periodChain 0x2000ffff).nBits).target ≤ wideParams.powLimit ∧
      nActualTimespan (periodChain 0x2000ffff) 0 wideParams = 1209600 ∧
      CalculateNextWorkRequired (periodChain 0x2000ffff) 0 wideParams = some 0x1e0cdebb ∧
      GetCompact (min wideParams.powLimit (0xffff * 2 ^ 232 * 1209600 / 1209600))
        = 0x2000ffff := by
  decide

/-- C8 (amended). With `fPowNoRetargeting = false`, `targetTimespan > 0`, a decoded
target `t <= powLimit` of the last block and `a` the difference
`lastBlock.timestamp - firstBlockTime` clamped into
`[targetTimespan / 4, targetTimespan * 4]`: whenever the exact product `t * a` is below
`2^256`, `CalculateNextWorkRequired` returns
`encode(min(powLimit, floor(t * a / targetTimespan)))`. -/
theorem CalculateNextWorkRequired_exact (last : CBlockIndex) (ft : Int) (params : Params)
    (hno : params.fPowNoRetargeting = false) (hT : 0 < params.nPowTargetTimespan)
    (_hle : (SetCompact last.nBits).target ≤ params.powLimit)
    (hfit : (SetCompact last.nBits).target *
        (min (max (last.GetBlockTime - ft) (params.nPowTargetTimespan / 4))
          (params.nPowTargetTimespan * 4)).toNat < 2 ^ 256) :
    CalculateNextWorkRequired last ft params =
      some (GetCompact (min params.powLimit
        ((SetCompact last.nBits).target *
          (min (max (last.GetBlockTime - ft) (params.nPowTargetTimespan / 4))
            (params.nPowTargetTimespan * 4)).toNat / params.nPowTargetTimespan.toNat))) := by
  have ha := nActualTimespan_eq last ft params (le_of_lt hT)
  have hnn : 0 ≤ min (max (last.GetBlockTime - ft) (params.nPowTargetTimespan / 4))
      (params.nPowTargetTimespan * 4) := by
    omega
  have hmd := mul256_div256 (SetCompact last.nBits).target _ params.nPowTargetTimespan hnn hT
    hfit
  unfold CalculateNextWorkRequired
  simp only [hno, Bool.false_eq_true, if_false, ha, hmd, UintToArith256]
  generalize (SetCompact last.nBits).target *
    (min (max (last.GetBlockTime - ft) (params.nPowTargetTimespan / 4))
      (params.nPowTargetTimespan * 4)).toNat / params.nPowTargetTimespan.toNat = q
  congr 2
  by_cases hq : q > params.powLimit
  · rw [if_pos hq, min_eq_left (by omega)]
  · rw [if_neg hq, min_eq_right (by omega)]

/-- Witness for C8 (amended): main-network parameters, a last block carrying
`0x1c00ffff` stamped one and a half timespans after the first block of the period: the
target grows by one half, to compact `0x1c017ffe`. -/
theorem CalculateNextWorkRequired_exact_witness :
    ((SetCompact (periodChainAt 1814400 0x1c00ffff).nBits).target *
        (min (max ((periodChainAt 1814400 0x1c00ffff).GetBlockTime - 0)
          (mainParams.nPowTargetTimespan / 4)) (mainParams.nPowTargetTimespan * 4)).toNat
          < 2 ^ 256) ∧
      CalculateNextWorkRequired (periodChainAt 1814400 0x1c00ffff) 0 mainParams
        = some 0x1c017ffe :=
  ⟨by decide,
    (CalculateNextWorkRequired_exact (periodChainAt 1814400 0x1c00ffff) 0 mainParams
      (by decide) (by decide) (by decide) (by decide)).trans (by decide)⟩

/-- C9. With `targetTimespan > 0`, the value `nActualTimespan` that
`CalculateNextWorkRequired` multiplies the decoded target by lies between
`targetTimespan / 4` (integer division) and `targetTimespan * 4`, and it equals
`lastBlock.timestamp - firstBlockTime` whenever that difference already lies in this
range. -/
theorem nActualTimespan_clamped (last : CBlockIndex) (ft : Int) (params : Params)
    (hT : 0 < params.nPowTargetTimespan) :
    params.nPowTargetTimespan / 4 ≤ nActualTimespan last ft params ∧
      nActualTimespan last ft params ≤ params.nPowTargetTimespan * 4 ∧
      (params.nPowTargetTimespan / 4 ≤ last.GetBlockTime - ft →
        last.GetBlockTime - ft ≤ params.nPowTargetTimespan * 4 →
        nActualTimespan last ft params = last.GetBlockTime - ft) := by
  rw [nActualTimespan_eq last ft params (le_of_lt hT)]
  omega

/-- Witness for C9: main-network parameters and a last block stamped ten timespans
after the first block of the period; the multiplier is cut to four timespans. -/
theorem nActualTimespan_clamped_witness :
    0 < mainParams.nPowTargetTimespan ∧
      nActualTimespan (periodChainAt 12096000 0x1c00ffff) 0 mainParams = 4838400 ∧
      mainParams.nPowTargetTimespan / 4 ≤
        nActualTimespan (periodChainAt 12096000 0x1c00ffff) 0 mainParams ∧
      nActualTimespan (periodChainAt 12096000 0x1c00ffff) 0 mainParams
        ≤ mainParams.nPowTargetTimespan * 4 :=
  ⟨by decide, by decide,
    (nActualTimespan_clamped (periodChainAt 12096000 0x1c00ffff) 0 mainParams (by decide)).1,
    (nActualTimespan_clamped (periodChainAt 12096000 0x1c00ffff) 0 mainParams (by decide)).2.1⟩

/-! ## Round trip of the codec -/

/-- C10. For a target `t <= powLimit < 2^256` that the compact form holds without loss
(a mantissa of at most 23 bits shifted by whole bytes), decoding the encoding gives `t`
back with both flags clear: `decode(encode(t)) = (t, false, false)`. -/
theorem SetCompact_GetCompact_roundtrip (t powLimit : Nat) (hle : t ≤ powLimit)
    (hlim : powLimit < 2 ^ 256) (hrep : Representable t) :
    SetCompact (GetCompact t) = { target := t, fNegative := false, fOverflow := false } := by
  have ht : t < 2 ^ 256 := lt_of_le_of_lt hle hlim
  have htarget : (SetCompact (GetCompact t)).target = t := by
    obtain ⟨m, e, hm, hte⟩ := hrep
    by_cases he : e ≤ 3
    · rw [if_pos he, shiftRight_bytes] at hte
      have hmt : t ≤ m := by
        rw [hte]
        exact Nat.div_le_self _ _
      exact SetCompact_GetCompact_exact t 0 ht (by simpa using lt_of_le_of_lt hmt hm)
        (by simp)
    · rw [if_neg he, shiftLeft_bytes] at hte
      refine SetCompact_GetCompact_exact t (e - 3) ht ?_ ?_
      · rw [hte]
        exact Nat.mul_lt_mul_of_pos_right hm (by positivity)
      · rw [hte]
        exact Dvd.intro_left _ rfl
  have hneg := SetCompact_GetCompact_fNegative t
  have hov := SetCompact_GetCompact_fOverflow t ht
  rcases hd : SetCompact (GetCompact t) with ⟨a, b, c⟩
  rw [hd] at htarget hneg hov
  simp only at htarget hneg hov
  rw [htarget, hneg, hov]

/-- Witness for C10: the main-network limit `0xffff * 2^208`, mantissa `0xffff` under
exponent `0x1d`. -/
theorem SetCompact_GetCompact_roundtrip_witness :
    Representable (0xffff * 2 ^ 208) ∧
      SetCompact (GetCompact (0xffff * 2 ^ 208))
        = { target := 0xffff * 2 ^ 208, fNegative := false, fOverflow := false } :=
  ⟨⟨0xffff, 0x1d, by decide, by decide⟩,
    SetCompact_GetCompact_roundtrip (0xffff * 2 ^ 208) mainParams.powLimit (by decide)
      (by decide) ⟨0xffff, 0x1d, by decide, by decide⟩⟩

/-! ## The assertions of `GetNextWorkRequired` -/

theorem wellFormed_nonneg (b : CBlockIndex) (wf : b.wellFormed = true) : 0 ≤ b.nHeight := by
  induction b with
  | root f =>
    simp only [CBlockIndex.wellFormed, decide_eq_true_eq] at wf
    simp [CBlockIndex.nHeight, CBlockIndex.fields, wf]
  | child f p ih =>
    simp only [CBlockIndex.wellFormed, Bool.and_eq_true, decide_eq_true_eq] at wf
    have hp := ih wf.2
    have h1 := wf.1
    show 0 ≤ f.nHeight
    omega

/-- On a well-formed chain the ancestor lookup finds an entry of every height between
`0` and the height of the starting entry. -/
theorem GetAncestor_wellFormed (b : CBlockIndex) (wf : b.wellFormed = true) :
    ∀ h : Int, 0 ≤ h → h ≤ b.nHeight →
      ∃ a, b.GetAncestor h = some a ∧ a.nHeight = h ∧ a ∈ b.chain := by
  induction b with
  | root f =>
    intro h h0 hle
    simp only [CBlockIndex.wellFormed, decide_eq_true_eq] at wf
    simp only [CBlockIndex.nHeight, CBlockIndex.fields] at hle
    have hh : f.nHeight = h := by omega
    refine ⟨.root f, ?_, ?_, self_mem_chain _⟩
    · simp only [CBlockIndex.GetAncestor]
      rw [if_neg (by omega), if_pos hh]
    · simpa [CBlockIndex.nHeight, CBlockIndex.fields] using hh
  | child f p ih =>
    intro h h0 hle
    simp only [CBlockIndex.wellFormed, Bool.and_eq_true, decide_eq_true_eq] at wf
    simp only [CBlockIndex.nHeight, CBlockIndex.fields] at hle
    by_cases hh : f.nHeight = h
    · refine ⟨.child f p, ?_, ?_, self_mem_chain _⟩
      · simp only [CBlockIndex.GetAncestor]
        rw [if_neg (by omega), if_pos hh]
      · simpa [CBlockIndex.nHeight, CBlockIndex.fields] using hh
    · have hp : h ≤ p.nHeight := by
        have := wf.1
        omega
      obtain ⟨a, ha, hah, hmem⟩ := ih wf.2 h h0 hp
      refine ⟨a, ?_, hah, ?_⟩
      · simp only [CBlockIndex.GetAncestor]
        rw [if_neg (by omega), if_neg hh]
        exact ha
      · simp only [CBlockIndex.chain, List.mem_cons]
        exact Or.inr hmem

/-- C11. On a well-formed chain, with a positive adjustment interval and a last block
with `(height + 1) % interval == 0`, neither assertion of `GetNextWorkRequired` fails:
`nHeightFirst = height - (interval - 1)` is non-negative and the ancestor lookup at that
height returns a block (of that height), so the function goes on to
`CalculateNextWorkRequired` with that block's timestamp. -/
theorem GetNextWorkRequired_assertions_hold (last : CBlockIndex) (pblock : CBlockHeader)
    (params : Params) (wf : last.wellFormed = true)
    (hint : 0 < params.DifficultyAdjustmentInterval)
    (hon : Int.tmod (last.nHeight + 1) params.DifficultyAdjustmentInterval = 0) :
    0 ≤ last.nHeight - (params.DifficultyAdjustmentInterval - 1) ∧
      ∃ first,
        last.GetAncestor (last.nHeight - (params.DifficultyAdjustmentInterval - 1))
          = some first ∧
        first.nHeight = last.nHeight - (params.DifficultyAdjustmentInterval - 1) ∧
        GetNextWorkRequired (some last) pblock params
          = CalculateNextWorkRequired last first.GetBlockTime params := by
  have hnn := wellFormed_nonneg last wf
  have hdvd : params.DifficultyAdjustmentInterval ∣ last.nHeight + 1 :=
    Int.dvd_of_tmod_eq_zero hon
  have hle : params.DifficultyAdjustmentInterval ≤ last.nHeight + 1 :=
    Int.le_of_dvd (by omega) hdvd
  have h0 : 0 ≤ last.nHeight - (params.DifficultyAdjustmentInterval - 1) := by omega
  obtain ⟨first, hfirst, hheight, _⟩ := GetAncestor_wellFormed last wf
    (last.nHeight - (params.DifficultyAdjustmentInterval - 1)) h0 (by omega)
  refine ⟨h0, first, hfirst, hheight, ?_⟩
  have hi : ¬ params.DifficultyAdjustmentInterval = 0 := by omega
  have hneg : ¬ last.nHeight - (params.DifficultyAdjustmentInterval - 1) < 0 := by omega
  simp only [GetNextWorkRequired, if_neg hi, hon, ne_eq, not_true_eq_false, if_false,
    if_neg hneg, hfirst]

/-- Witness for C11: main-network parameters on the well-formed 2016-entry chain; the
first block of the period is genesis. -/
theorem GetNextWorkRequired_assertions_hold_witness :
    (periodChain 0x1c00ffff).wellFormed = true ∧
      Int.tmod ((periodChain 0x1c00ffff).nHeight + 1) mainParams.DifficultyAdjustmentInterval
        = 0 ∧
      0 ≤ (periodChain 0x1c00ffff).nHeight - (mainParams.DifficultyAdjustmentInterval - 1) ∧
      ∃ first,
        (periodChain 0x1c00ffff).GetAncestor
            ((periodChain 0x1c00ffff).nHeight - (mainParams.DifficultyAdjustmentInterval - 1))
          = some first ∧
        first.nHeight
          = (periodChain 0x1c00ffff).nHeight - (mainParams.DifficultyAdjustmentInterval - 1) ∧
        GetNextWorkRequired (some (periodChain 0x1c00ffff)) ⟨1210200⟩ mainParams
          = CalculateNextWorkRequired (periodChain 0x1c00ffff) first.GetBlockTime mainParams :=
  ⟨by set_option maxRecDepth 100000 in decide, by decide,
    GetNextWorkRequired_assertions_hold (periodChain 0x1c00ffff) ⟨1210200⟩ mainParams
      (by set_option maxRecDepth 100000 in decide) (by decide) (by decide)⟩

/-! ## The opening of `BermudaGravityPull` -/

/-- The return of line 29 for a non-negative height: the unsigned comparison of line 29
is then the plain comparison of the height with `PastBlocksMin`. -/
theorem BermudaGravityPull_of_nonneg (last : CBlockIndex) (params : Params)
    (hS : 0 < params.nPowTargetSpacing) (hnn : 0 ≤ last.nHeight)
    (h : last.nHeight = 0 ∨ last.nHeight < (PastBlocksMin params : Int)) :
    BermudaGravityPull (some last) params = .returned (GetCompact params.powLimit) := by
  have hS' : ¬ ofInt64 params.nPowTargetSpacing = 0 := by
    simp only [ofInt64, if_pos (le_of_lt hS)]
    omega
  have hc : last.nHeight = 0 ∨ ofInt64 last.nHeight < PastBlocksMin params := by
    rcases h with h0 | hlt
    · exact Or.inl h0
    · refine Or.inr ?_
      simp only [ofInt64, if_pos hnn]
      omega
  simp only [BermudaGravityPull, if_neg hS', if_pos hc, UintToArith256]

/-- C12. With `targetSpacing > 0` and
`minWindow = uint64(25 * targetTimespan) / targetSpacing`, for a last block that is
null, or (on a well-formed chain) has height 0 or a height below `minWindow`,
`BermudaGravityPull` returns `encode(powLimit)` at line 29.  No ancestor is read: any
entry with the same fields, whatever its ancestors, gets the same result. -/
theorem BermudaGravityPull_bootstrap (pindexLast : Option CBlockIndex) (params : Params)
    (hS : 0 < params.nPowTargetSpacing)
    (wf : ∀ last, pindexLast = some last → last.wellFormed = true)
    (h : pindexLast = none ∨
      ∃ last, pindexLast = some last ∧
        (last.nHeight = 0 ∨ last.nHeight < (PastBlocksMin params : Int))) :
    BermudaGravityPull pindexLast params = .returned (GetCompact params.powLimit) ∧
      ∀ last other : CBlockIndex, pindexLast = some last → other.fields = last.fields →
        BermudaGravityPull (some other) params = .returned (GetCompact params.powLimit) := by
  rcases h with rfl | ⟨last, rfl, hl⟩
  · refine ⟨?_, fun last other hlast _ => by cases hlast⟩
    have hS' : ¬ ofInt64 params.nPowTargetSpacing = 0 := by
      simp only [ofInt64, if_pos (le_of_lt hS)]
      omega
    simp only [BermudaGravityPull, if_neg hS', UintToArith256]
  · have hnn := wellFormed_nonneg last (wf last rfl)
    refine ⟨BermudaGravityPull_of_nonneg last params hS hnn hl, ?_⟩
    intro last' other hlast hf
    cases hlast
    have hh : other.nHeight = last.nHeight := by
      simp only [CBlockIndex.nHeight, hf]
    exact BermudaGravityPull_of_nonneg other params hS (by omega) (by
      rcases hl with h0 | hlt
      · exact Or.inl (by omega)
      · exact Or.inr (by omega))

/-- Witness for C12: main-network parameters (`minWindow = 50400`) and the tip of a
well-formed chain of heights `0 .. 5`. -/
theorem BermudaGravityPull_bootstrap_witness :
    0 < mainParams.nPowTargetSpacing ∧ PastBlocksMin mainParams = 50400 ∧
      (sampleChain 600 0x1c00ffff 5).wellFormed = true ∧
      (sampleChain 600 0x1c00ffff 5).nHeight < (PastBlocksMin mainParams : Int) ∧
      BermudaGravityPull (some (sampleChain 600 0x1c00ffff 5)) mainParams
        = .returned 0x1d00ffff :=
  ⟨by decide, by decide, by decide, by decide,
    (BermudaGravityPull_bootstrap (some (sampleChain 600 0x1c00ffff 5)) mainParams (by decide)
      (fun last hl => by cases hl; decide)
      (Or.inr ⟨_, rfl, Or.inr (by decide)⟩)).1⟩

/-- C14 (the code at the failing input). The conditional expression of line 44 tests the
value against ten times itself, so it is `1` below `1` and the value itself otherwise:
there is no upper bound `10 * T`.  With `T = 600`, the value `6001` is left at `6001`. -/
theorem clampPastRateTargetSeconds_unbounded :
    (∀ d : Int, clampPastRateTargetSeconds d = if d < 1 then 1 else d) ∧
      clampPastRateTargetSeconds 6001 = 6001 ∧
      ¬ clampPastRateTargetSeconds 6001 ≤ 10 * mainParams.nPowTargetSpacing := by
  refine ⟨fun d => ?_, by decide, by decide⟩
  unfold clampPastRateTargetSeconds
  split
  · rfl
  · rw [if_neg (by omega)]

/-! ## Order properties of the codec -/

/-- A decoded encoding of a 256-bit value is a mantissa below `2 ^ 23` followed by whole
zero bytes. -/
theorem SetCompact_GetCompact_form (x : Nat) (hx : x < 2 ^ 256) :
    ∃ m j, m < 2 ^ 23 ∧ (SetCompact (GetCompact x)).target = m * 256 ^ j := by
  obtain ⟨m, e, k, hm, hc, _, hv, _⟩ := GetCompact_shape x
  rw [hc, SetCompact_add m e hm]
  show ∃ m' j, m' < 2 ^ 23 ∧
    (if e ≤ 3 then m / 256 ^ (3 - e) else (m * 256 ^ (e - 3)) % 2 ^ 256) = m' * 256 ^ j
  have hk : x / 256 ^ k * 256 ^ k ≤ x := Nat.div_mul_le_self x _
  by_cases he : e ≤ 3
  · rw [if_pos he]
    refine ⟨m / 256 ^ (3 - e), 0, lt_of_le_of_lt (Nat.div_le_self _ _) hm, by simp⟩
  · rw [if_neg he] at hv ⊢
    refine ⟨m, e - 3, hm, Nat.mod_eq_of_lt ?_⟩
    omega

/-- Every value of that form below `y` is also below the decoded encoding of `y`: the
codec rounds down to the nearest value it can hold. -/
theorem le_SetCompact_GetCompact (z m j y : Nat) (hz : z = m * 256 ^ j) (hm : m < 2 ^ 23)
    (hzy : z ≤ y) (hy : y < 2 ^ 256) : z ≤ (SetCompact (GetCompact y)).target := by
  obtain ⟨m', e, k, hm', hc, _, hv, hmin⟩ := GetCompact_shape y
  rw [hc, SetCompact_add m' e hm']
  show z ≤ (if e ≤ 3 then m' / 256 ^ (3 - e) else (m' * 256 ^ (e - 3)) % 2 ^ 256)
  have hk : y / 256 ^ k * 256 ^ k ≤ y := Nat.div_mul_le_self y _
  have htarget : (if e ≤ 3 then m' / 256 ^ (3 - e) else (m' * 256 ^ (e - 3)) % 2 ^ 256)
      = y / 256 ^ k * 256 ^ k := by
    by_cases he : e ≤ 3
    · rw [if_pos he] at hv ⊢
      exact hv
    · rw [if_neg he] at hv ⊢
      rw [hv]
      exact Nat.mod_eq_of_lt (by omega)
  rw [htarget]
  have hpos : 0 < 256 ^ k := by positivity
  by_cases hkj : k ≤ j
  · have hdvd : 256 ^ k ∣ z := by
      rw [hz]
      exact Dvd.dvd.mul_left (pow_dvd_pow 256 hkj) m
    have h1 : z / 256 ^ k ≤ y / 256 ^ k := Nat.div_le_div_right hzy
    calc z = z / 256 ^ k * 256 ^ k := (Nat.div_mul_cancel hdvd).symm
      _ ≤ y / 256 ^ k * 256 ^ k := Nat.mul_le_mul_right _ h1
  · have hk1 : 1 ≤ k := by omega
    have hge : 2 ^ 23 * 256 ^ (k - 1) ≤ y := by
      by_contra hc'
      have := hmin (k - 1) (by omega)
      omega
    have hsplit : 2 ^ 23 * 256 ^ (k - 1) = 2 ^ 15 * 256 ^ k := by
      have : k = (k - 1) + 1 := by omega
      conv_rhs => rw [this, pow_succ]
      ring
    have hq : 2 ^ 15 ≤ y / 256 ^ k := by
      rw [Nat.le_div_iff_mul_le hpos, ← hsplit]
      exact hge
    have hjk : 256 ^ j ≤ 256 ^ (k - 1) := Nat.pow_le_pow_right (by norm_num) (by omega)
    calc z = m * 256 ^ j := hz
      _ ≤ 2 ^ 23 * 256 ^ j := Nat.mul_le_mul_right _ (le_of_lt hm)
      _ ≤ 2 ^ 23 * 256 ^ (k - 1) := Nat.mul_le_mul_left _ hjk
      _ = 2 ^ 15 * 256 ^ k := hsplit
      _ ≤ y / 256 ^ k * 256 ^ k := Nat.mul_le_mul_right _ hq

/-- Decoding after encoding is monotone on 256-bit values. -/
theorem SetCompact_GetCompact_mono (x y : Nat) (hxy : x ≤ y) (hy : y < 2 ^ 256) :
    (SetCompact (GetCompact x)).target ≤ (SetCompact (GetCompact y)).target := by
  obtain ⟨m, j, hm, hform⟩ := SetCompact_GetCompact_form x (lt_of_le_of_lt hxy hy)
  exact le_SetCompact_GetCompact _ m j y hform hm
    (le_trans (SetCompact_GetCompact_le x) hxy) hy

/-- The value of `CalculateNextWorkRequired` with retargeting on and a positive timespan:
the product is taken modulo `2 ^ 256`, divided, cut to `powLimit` and encoded. -/
theorem CalculateNextWorkRequired_retarget (last : CBlockIndex) (ft : Int) (params : Params)
    (hno : params.fPowNoRetargeting = false) (hT : 0 < params.nPowTargetTimespan) :
    CalculateNextWorkRequired last ft params =
      some (GetCompact (min params.powLimit
        ((SetCompact last.nBits).target * (nActualTimespan last ft params).toNat % 2 ^ 256
          / params.nPowTargetTimespan.toNat))) := by
  have ha := nActualTimespan_eq last ft params (le_of_lt hT)
  have hnn : 0 ≤ nActualTimespan last ft params := by
    rw [ha]
    omega
  have e1 : ofInt64 (nActualTimespan last ft params) = (nActualTimespan last ft params).toNat := by
    simp [ofInt64, hnn]
  have e2 : ofInt64 params.nPowTargetTimespan = params.nPowTargetTimespan.toNat := by
    simp [ofInt64, le_of_lt hT]
  have hT' : ¬ params.nPowTargetTimespan.toNat = 0 := by omega
  unfold CalculateNextWorkRequired
  simp only [hno, Bool.false_eq_true, if_false, div256, mul256, e1, e2, if_neg hT',
    UintToArith256]
  generalize (SetCompact last.nBits).target * (nActualTimespan last ft params).toNat % 2 ^ 256
    / params.nPowTargetTimespan.toNat = q
  congr 2
  by_cases hq : q > params.powLimit
  · rw [if_pos hq, min_eq_left (by omega)]
  · rw [if_neg hq, min_eq_right (by omega)]

/-! ## Bounds on one retarget -/

/-- C13. With `fPowNoRetargeting = false` and `targetTimespan > 0`,
`CalculateNextWorkRequired` returns a compact value whose decoded target is at most four
times the target decoded from `lastBlock.nBits`, also when the 256-bit product wraps. -/
theorem CalculateNextWorkRequired_le_four_times (last : CBlockIndex) (ft : Int)
    (params : Params) (hno : params.fPowNoRetargeting = false)
    (hT : 0 < params.nPowTargetTimespan) :
    ∃ r, CalculateNextWorkRequired last ft params = some r ∧
      (SetCompact r).target ≤ 4 * (SetCompact last.nBits).target := by
  refine ⟨_, CalculateNextWorkRequired_retarget last ft params hno hT, ?_⟩
  have ha := nActualTimespan_eq last ft params (le_of_lt hT)
  have hle : (nActualTimespan last ft params).toNat ≤ 4 * params.nPowTargetTimespan.toNat := by
    rw [ha]
    omega
  have hTpos : 0 < params.nPowTargetTimespan.toNat := by omega
  refine le_trans (SetCompact_GetCompact_le _) (le_trans (min_le_right _ _) ?_)
  apply Nat.div_le_of_le_mul
  calc (SetCompact last.nBits).target * (nActualTimespan last ft params).toNat % 2 ^ 256
      ≤ (SetCompact last.nBits).target * (nActualTimespan last ft params).toNat :=
        Nat.mod_le _ _
    _ ≤ (SetCompact last.nBits).target * (4 * params.nPowTargetTimespan.toNat) :=
        Nat.mul_le_mul_left _ hle
    _ = params.nPowTargetTimespan.toNat * (4 * (SetCompact last.nBits).target) := by ring

/-- Witness for C13: the wide limit `2^255 - 1`, a last block at the limit stamped ten
timespans after the first block (clamped to four): the product wraps and the result
`0x1e09debb` decodes below four times the old target. -/
theorem CalculateNextWorkRequired_le_four_times_witness :
    wideParams.fPowNoRetargeting = false ∧ 0 < wideParams.nPowTargetTimespan ∧
      CalculateNextWorkRequired (periodChainAt 12096000 0x207fffff) 0 wideParams
        = some 0x1e09debb ∧
      ∃ r, CalculateNextWorkRequired (periodChainAt 12096000 0x207fffff) 0 wideParams
          = some r ∧
        (SetCompact r).target ≤ 4 * (SetCompact (periodChainAt 12096000 0x207fffff).nBits).target :=
  ⟨by decide, by decide, by decide,
    CalculateNextWorkRequired_le_four_times (periodChainAt 12096000 0x207fffff) 0 wideParams
      (by decide) (by decide)⟩

/-- C16. With `fPowNoRetargeting = false`, `targetTimespan > 0` and a decoded target `t`
of the last block with `t * 4 * targetTimespan < 2^256`, `CalculateNextWorkRequired` is
monotone in the observed timespan: for `firstBlockTime1 >= firstBlockTime2` the target
decoded from the result for `firstBlockTime1` is at most the one for
`firstBlockTime2`. -/
theorem CalculateNextWorkRequired_mono (last : CBlockIndex) (ft1 ft2 : Int) (params : Params)
    (hno : params.fPowNoRetargeting = false) (hT : 0 < params.nPowTargetTimespan)
    (hfit : (SetCompact last.nBits).target * 4 * params.nPowTargetTimespan.toNat < 2 ^ 256)
    (hft : ft2 ≤ ft1) :
    ∃ r1 r2, CalculateNextWorkRequired last ft1 params = some r1 ∧
      CalculateNextWorkRequired last ft2 params = some r2 ∧
      (SetCompact r1).target ≤ (SetCompact r2).target := by
  refine ⟨_, _, CalculateNextWorkRequired_retarget last ft1 params hno hT,
    CalculateNextWorkRequired_retarget last ft2 params hno hT, ?_⟩
  have ha1 := nActualTimespan_eq last ft1 params (le_of_lt hT)
  have ha2 := nActualTimespan_eq last ft2 params (le_of_lt hT)
  have h12 : (nActualTimespan last ft1 params).toNat ≤ (nActualTimespan last ft2 params).toNat := by
    rw [ha1, ha2]
    omega
  have h2 : (nActualTimespan last ft2 params).toNat ≤ 4 * params.nPowTargetTimespan.toNat := by
    rw [ha2]
    omega
  have hp2 : (SetCompact last.nBits).target * (nActualTimespan last ft2 params).toNat
      < 2 ^ 256 := by
    calc (SetCompact last.nBits).target * (nActualTimespan last ft2 params).toNat
        ≤ (SetCompact last.nBits).target * (4 * params.nPowTargetTimespan.toNat) :=
          Nat.mul_le_mul_left _ h2
      _ = (SetCompact last.nBits).target * 4 * params.nPowTargetTimespan.toNat := by ring
      _ < 2 ^ 256 := hfit
  have hp12 : (SetCompact last.nBits).target * (nActualTimespan last ft1 params).toNat
      ≤ (SetCompact last.nBits).target * (nActualTimespan last ft2 params).toNat :=
    Nat.mul_le_mul_left _ h12
  have hp1 : (SetCompact last.nBits).target * (nActualTimespan last ft1 params).toNat
      < 2 ^ 256 := lt_of_le_of_lt hp12 hp2
  rw [Nat.mod_eq_of_lt hp1, Nat.mod_eq_of_lt hp2]
  have hq : (SetCompact last.nBits).target * (nActualTimespan last ft1 params).toNat
        / params.nPowTargetTimespan.toNat
      ≤ (SetCompact last.nBits).target * (nActualTimespan last ft2 params).toNat
        / params.nPowTargetTimespan.toNat := Nat.div_le_div_right hp12
  have hq2 : (SetCompact last.nBits).target * (nActualTimespan last ft2 params).toNat
        / params.nPowTargetTimespan.toNat < 2 ^ 256 :=
    lt_of_le_of_lt (Nat.div_le_self _ _) hp2
  apply SetCompact_GetCompact_mono
  · exact min_le_min le_rfl hq
  · exact lt_of_le_of_lt (min_le_right _ _) hq2

/-- Witness for C16: main-network parameters, a last block carrying `0x1c00ffff` stamped
`1814400`; a first block stamped `604800` (observed timespan equal to the target) gives
`0x1c00ffff`, a first block stamped `0` (one and a half timespans) gives `0x1c017ffe`. -/
theorem CalculateNextWorkRequired_mono_witness :
    (SetCompact (periodChainAt 1814400 0x1c00ffff).nBits).target * 4
        * mainParams.nPowTargetTimespan.toNat < 2 ^ 256 ∧
      CalculateNextWorkRequired (periodChainAt 1814400 0x1c00ffff) 604800 mainParams
        = some 0x1c00ffff ∧
      CalculateNextWorkRequired (periodChainAt 1814400 0x1c00ffff) 0 mainParams
        = some 0x1c017ffe ∧
      ∃ r1 r2, CalculateNextWorkRequired (periodChainAt 1814400 0x1c00ffff) 604800 mainParams
          = some r1 ∧
        CalculateNextWorkRequired (periodChainAt 1814400 0x1c00ffff) 0 mainParams = some r2 ∧
        (SetCompact r1).target ≤ (SetCompact r2).target :=
  ⟨by decide, by decide, by decide,
    CalculateNextWorkRequired_mono (periodChainAt 1814400 0x1c00ffff) 604800 0 mainParams
      (by decide) (by decide) (by decide) (by decide)⟩

/-! ## Overflow reporting of the decoder -/

/-- C17. For `0 < powLimit < 2^256`, decoding `nProofOfWorkLimit = encode(powLimit)`
gives both flags clear and a target with `0 < target <= powLimit`, so
`CheckProofOfWork(hash, encode(powLimit), params)` is true for every hash at most the
decoded target, in particular for the hash `0`. -/
theorem CheckProofOfWork_powLimit (params : Params) (h0 : 0 < params.powLimit)
    (h1 : params.powLimit < 2 ^ 256) :
    (SetCompact (GetCompact params.powLimit)).fNegative = false ∧
      (SetCompact (GetCompact params.powLimit)).fOverflow = false ∧
      0 < (SetCompact (GetCompact params.powLimit)).target ∧
      (SetCompact (GetCompact params.powLimit)).target ≤ params.powLimit ∧
      (∀ hash, hash ≤ (SetCompact (GetCompact params.powLimit)).target →
        CheckProofOfWork hash (GetCompact params.powLimit) params = true) ∧
      CheckProofOfWork 0 (GetCompact params.powLimit) params = true := by
  have hneg := SetCompact_GetCompact_fNegative params.powLimit
  have hov := SetCompact_GetCompact_fOverflow params.powLimit h1
  have hle := SetCompact_GetCompact_le params.powLimit
  have hpos : 0 < (SetCompact (GetCompact params.powLimit)).target :=
    le_SetCompact_GetCompact 1 1 0 params.powLimit (by norm_num) (by norm_num) h0 h1
  have hall : ∀ hash, hash ≤ (SetCompact (GetCompact params.powLimit)).target →
      CheckProofOfWork hash (GetCompact params.powLimit) params = true := by
    intro hash hh
    unfold CheckProofOfWork UintToArith256
    simp only [hneg, hov, Bool.false_or, Bool.or_false]
    have hz : ((SetCompact (GetCompact params.powLimit)).target == 0) = false := by
      simp only [beq_eq_false_iff_ne, ne_eq]
      omega
    have hg : decide ((SetCompact (GetCompact params.powLimit)).target > params.powLimit)
        = false := by
      simp only [decide_eq_false_iff_not]
      omega
    simp only [hz, hg, Bool.or_self, Bool.false_eq_true, if_false]
    rw [if_neg (by omega)]
  exact ⟨hneg, hov, hpos, hle, hall, hall 0 (Nat.zero_le _)⟩

/-- Witness for C17: the main-network limit. -/
theorem CheckProofOfWork_powLimit_witness :
    0 < mainParams.powLimit ∧ mainParams.powLimit < 2 ^ 256 ∧
      GetCompact mainParams.powLimit = 0x1d00ffff ∧
      CheckProofOfWork 0 (GetCompact mainParams.powLimit) mainParams = true :=
  ⟨by decide, by decide, by decide,
    (CheckProofOfWork_powLimit mainParams (by decide) (by decide)).2.2.2.2.2⟩

end Pow
